import Mathlib

/-!
Verification of the `dblp` crate (DBLP bibliography ingester and query layer)
against its natural-language specification.

The Rust sources are shallowly embedded: Rust `&str`/`String` values are
modelled as `List Char` (all relevant inputs are ASCII, so char positions and
byte offsets coincide), fallible operations return `Option`/`RunResult`, and a
Rust panic is modelled by the `RunResult.panicked` constructor.  Regex searches
are specialised to the concrete patterns the crate compiles.
-/

namespace Dblp

/-- Rust strings are modelled as lists of characters. -/
abbrev Str := List Char

/-- Outcome of running a piece of Rust code that may panic
(`unwrap`, out-of-bounds slicing, `unimplemented!`). -/
inductive RunResult (α : Type) where
  | ok (a : α)
  | panicked (msg : String)
deriving DecidableEq, Repr

/-! ## 4.A Reference stripper (`dataset.rs`, `strip_references`)

The crate compiles the regex `&[[:alpha:]]+;` and calls `replace_all(_, "")`.
`[[:alpha:]]` is the ASCII class, matching Lean's `Char.isAlpha`.  Because the
character class excludes `;`, backtracking inside `[[:alpha:]]+` can never
succeed after the maximal run fails, so a match at a position is exactly: `&`,
a maximal non-empty alphabetic run, then `;`.  `replace_all` scans left to
right and resumes scanning after each (deleted) match. -/

/-- Split a string into its maximal leading run of ASCII alphabetic characters
and the remainder. -/
def takeAlphas : Str → Str × Str
  | [] => ([], [])
  | c :: cs =>
    if c.isAlpha then
      let r := takeAlphas cs
      (c :: r.1, r.2)
    else ([], c :: cs)

theorem takeAlphas_append : ∀ s : Str, (takeAlphas s).1 ++ (takeAlphas s).2 = s
  | [] => rfl
  | c :: cs => by
    by_cases h : c.isAlpha
    · simp [takeAlphas, h, takeAlphas_append cs]
    · simp [takeAlphas, h]

theorem takeAlphas_rest_length (s : Str) : (takeAlphas s).2.length ≤ s.length := by
  conv_rhs => rw [← takeAlphas_append s]
  simp

theorem takeAlphas_rest_suffix (s : Str) : (takeAlphas s).2 <:+ s :=
  ⟨(takeAlphas s).1, takeAlphas_append s⟩

/-- Does the regex `&[[:alpha:]]+;` match at the current position, given the
text `cs` that follows a leading `&`? -/
def refMatchAt (cs : Str) : Bool :=
  !(takeAlphas cs).1.isEmpty && ((takeAlphas cs).2.head? == some ';')

/-- Model of `strip_references` from `dataset.rs`: delete every match of
`&[[:alpha:]]+;`, scanning left to right and resuming after each match. -/
def stripReferences : Str → Str
  | [] => []
  | c :: cs =>
    if c == '&' && refMatchAt cs then
      stripReferences (takeAlphas cs).2.tail
    else
      c :: stripReferences cs
termination_by s => s.length
decreasing_by
  · rename_i hcond
    have hlen := takeAlphas_rest_length cs
    have hne : (takeAlphas cs).2 ≠ [] := by
      intro hnil
      simp [refMatchAt, hnil] at hcond
    have : (takeAlphas cs).2.tail.length = (takeAlphas cs).2.length - 1 :=
      List.length_tail _
    have hpos : 0 < (takeAlphas cs).2.length := List.length_pos.mpr hne
    simp only [List.length_cons]
    omega
  · simp

theorem stripReferences_nil : stripReferences [] = [] := by
  simp [stripReferences]

theorem strip_step_yes (c : Char) (cs : Str) (h : (c == '&' && refMatchAt cs) = true) :
    stripReferences (c :: cs) = stripReferences (takeAlphas cs).2.tail := by
  rw [stripReferences, if_pos h]

theorem strip_step_no (c : Char) (cs : Str) (h : (c == '&' && refMatchAt cs) = false) :
    stripReferences (c :: cs) = c :: stripReferences cs := by
  rw [stripReferences, if_neg (by simp [h])]

/-- A string without `&` is left unchanged by the stripper. -/
theorem strip_no_amp : ∀ s : Str, '&' ∉ s → stripReferences s = s
  | [], _ => stripReferences_nil
  | c :: cs, h => by
    have hc : c ≠ '&' := fun he => h (he ▸ List.mem_cons_self c cs)
    have hcs : '&' ∉ cs := fun hm => h (List.mem_cons_of_mem c hm)
    rw [strip_step_no c cs (by simp [hc]), strip_no_amp cs hcs]

/-- C2 counterexample input `"&a&b;c;"`. -/
def c2Input : Str := ['&', 'a', '&', 'b', ';', 'c', ';']

theorem stripReferences_c2Input : stripReferences c2Input = ['&', 'a', 'c', ';'] := by
  rw [c2Input,
    strip_step_no _ _ (by decide),
    strip_step_no _ _ (by decide),
    strip_step_yes _ _ (by decide)]
  rw [show (takeAlphas ['b', ';', 'c', ';']).2.tail = ['c', ';'] from by decide]
  rw [strip_step_no _ _ (by decide), strip_step_no _ _ (by decide), stripReferences_nil]

theorem stripReferences_c2Input_twice :
    stripReferences (stripReferences c2Input) = [] := by
  rw [stripReferences_c2Input, strip_step_yes _ _ (by decide)]
  rw [show (takeAlphas ['a', 'c', ';']).2.tail = [] from by decide]
  exact stripReferences_nil

/-- C2 (counterexample): `strip_references` is not idempotent.  On
`"&a&b;c;"` the first pass deletes `&b;` and thereby juxtaposes the leading
`&a` with `c;`, creating the fresh match `&ac;`; a second pass deletes it. -/
theorem c2_strip_not_idempotent :
    stripReferences (stripReferences c2Input) ≠ stripReferences c2Input := by
  rw [stripReferences_c2Input_twice, stripReferences_c2Input]
  decide

/-- C2 (amended): `strip_references` is idempotent on every input containing
at most one `&`; in general a deletion can create a new `&[A-Za-z]+;` match,
so unrestricted idempotence fails. -/
theorem c2_strip_idempotent_single_amp :
    ∀ X : Str, X.count '&' ≤ 1 →
      stripReferences (stripReferences X) = stripReferences X
  | [], _ => by rw [stripReferences_nil, stripReferences_nil]
  | c :: cs, h => by
    by_cases hc : c = '&'
    · subst hc
      have hcs : '&' ∉ cs := by
        rw [← List.count_eq_zero]
        simp [List.count_cons] at h
        omega
      by_cases hm : refMatchAt cs
      · have hb : (('&' : Char) == '&' && refMatchAt cs) = true := by simp [hm]
        rw [strip_step_yes _ _ hb]
        have htail : '&' ∉ (takeAlphas cs).2.tail := by
          intro hmem
          exact hcs ((takeAlphas_rest_suffix cs).subset
            (List.tail_subset _ hmem))
        rw [strip_no_amp _ htail]
        exact strip_no_amp _ htail
      · have hb : (('&' : Char) == '&' && refMatchAt cs) = false := by simp [hm]
        rw [strip_step_no _ _ hb, strip_no_amp cs hcs, strip_step_no _ _ hb,
          strip_no_amp cs hcs]
    · have hb : (c == '&' && refMatchAt cs) = false := by simp [hc]
      have hb2 : (c == '&' && refMatchAt (stripReferences cs)) = false := by
        simp [hc]
      have hcount : cs.count '&' ≤ 1 := by
        have := List.count_cons '&' c cs
        simp [hc] at this
        omega
      rw [strip_step_no _ _ hb, strip_step_no _ _ hb2,
        c2_strip_idempotent_single_amp cs hcount]

/-- C2 (witness): the amended idempotence theorem applied to `"x&ab;y"`. -/
theorem c2_strip_idempotent_single_amp_witness :
    stripReferences (stripReferences ['x', '&', 'a', 'b', ';', 'y']) =
      stripReferences ['x', '&', 'a', 'b', ';', 'y'] :=
  c2_strip_idempotent_single_amp ['x', '&', 'a', 'b', ';', 'y'] (by decide)

/-! ## 3. Bag encoding (`db_items.rs`)

`SEPARATOR = "::"` both bounds and joins the elements of a serialised list.
`join_string_vec` produces the encoding; `DblpRecord::authors` decodes a
stored field by `trim_matches([':', ':'])` (which strips every leading and
trailing `':'` character) followed by `split("::")` (leftmost,
non-overlapping). -/

/-- The separator used to join vectors in the database (`SEPARATOR`). -/
def SEP : Str := [':', ':']

/-- Rust `Vec::join("::")`: interleave the separator between the elements. -/
def joinSep : List Str → Str
  | [] => []
  | [x] => x
  | x :: y :: rest => x ++ SEP ++ joinSep (y :: rest)

/-- Model of `join_string_vec`: empty vector encodes to the empty string, otherwise
the elements are joined with `::` and bounded by `::` on each side. -/
def joinStringVec (v : List Str) : Str :=
  match v with
  | [] => []
  | _ => SEP ++ joinSep v ++ SEP

/-- Rust `str::split("::")`: scan left to right; a separator occurrence
splits, otherwise the scan advances one character. `""` splits to `[""]`. -/
def splitSep : Str → List Str
  | [] => [[]]
  | [c] => [[c]]
  | c₁ :: c₂ :: rest =>
    if c₁ = ':' ∧ c₂ = ':' then
      [] :: splitSep rest
    else
      match splitSep (c₂ :: rest) with
      | [] => [[c₁]]
      | r :: rs => (c₁ :: r) :: rs

/-- Rust `str::trim_matches([':', ':'])`: strip every leading and trailing
`':'` character. -/
def trimColons (s : Str) : Str :=
  ((s.dropWhile (fun c => c = ':')).reverse.dropWhile (fun c => c = ':')).reverse

/-- Does the string contain the two-character separator `::`? -/
def containsSep : Str → Bool
  | [] => false
  | [_] => false
  | c₁ :: c₂ :: rest => (c₁ = ':' && c₂ = ':') || containsSep (c₂ :: rest)

/-- The `authors` field of a `DblpRecord` as built by the
`try_into_dblp_record!` macro: an empty author list is stored as `NULL`,
otherwise as the bag encoding. -/
def encodeAuthorsField (l : List Str) : Option Str :=
  match l with
  | [] => none
  | _ => some (joinStringVec l)

/-- Model of `DblpRecord::authors`: decode a stored authors field by trimming `':'`
from both ends and splitting on `::`; `NULL` decodes to `None`. -/
def recordAuthors : Option Str → Option (List Str)
  | none => none
  | some s => some (splitSep (trimColons s))

theorem splitSep_ne_nil : ∀ s : Str, splitSep s ≠ []
  | [] => by simp [splitSep]
  | [c] => by simp [splitSep]
  | c₁ :: c₂ :: rest => by
    by_cases h : c₁ = ':' ∧ c₂ = ':'
    · simp [splitSep, h]
    · have := splitSep_ne_nil (c₂ :: rest)
      simp only [splitSep, if_neg h]
      match hs : splitSep (c₂ :: rest) with
      | [] => exact absurd hs this
      | r :: rs => simp

/-- A string without the separator is a single piece. -/
theorem splitSep_no_sep : ∀ s : Str, containsSep s = false → splitSep s = [s]
  | [], _ => by simp [splitSep]
  | [c], _ => by simp [splitSep]
  | c₁ :: c₂ :: rest, h => by
    have hns : ¬(c₁ = ':' ∧ c₂ = ':') := by
      intro ⟨h1, h2⟩
      simp [containsSep, h1, h2] at h
    have hrest : containsSep (c₂ :: rest) = false := by
      simp [containsSep] at h
      exact h.2
    simp only [splitSep, if_neg hns, splitSep_no_sep (c₂ :: rest) hrest]

/-- Splitting a piece followed by an explicit separator: the piece must not
contain `::` and must not end in `':'` (otherwise the leftmost separator
occurrence would shift into the piece). -/
theorem splitSep_append :
    ∀ x t : Str, containsSep x = false → x.getLast? ≠ some ':' →
      splitSep (x ++ ':' :: ':' :: t) = x :: splitSep t
  | [], t, _, _ => by simp [splitSep]
  | [c], t, _, h2 => by
    have hc : c ≠ ':' := by simpa using h2
    have hmid : splitSep (':' :: ':' :: t) = [] :: splitSep t := by
      simp [splitSep]
    have hstep := splitSep.eq_3 c ':' (':' :: t)
    rw [List.cons_append, List.nil_append, hstep,
      if_neg (fun hand : c = ':' ∧ ':' = ':' => hc hand.1), hmid]
  | c₁ :: c₂ :: x', t, h1, h2 => by
    have hns : ¬(c₁ = ':' ∧ c₂ = ':') := by
      intro ⟨ha, hb⟩
      simp [containsSep, ha, hb] at h1
    have hrest : containsSep (c₂ :: x') = false := by
      simp [containsSep] at h1
      exact h1.2
    have hlast : (c₂ :: x').getLast? ≠ some ':' := by
      rwa [List.getLast?_cons_cons] at h2
    have ih := splitSep_append (c₂ :: x') t hrest hlast
    simp only [List.cons_append] at ih ⊢
    simp only [splitSep, if_neg hns, ih]

/-- Splitting recovers the factors of a join when no factor contains `::`
or ends in `':'`. -/
theorem splitSep_joinSep :
    ∀ L : List Str, L ≠ [] →
      (∀ x ∈ L, containsSep x = false) →
      (∀ x ∈ L, x.getLast? ≠ some ':') →
      splitSep (joinSep L) = L
  | [], h, _, _ => absurd rfl h
  | [x], _, h1, _ => by
    rw [joinSep]
    exact splitSep_no_sep x (h1 x (List.mem_singleton_self x))
  | x :: y :: rest, _, h1, h2 => by
    rw [joinSep]
    have hx1 : containsSep x = false := h1 x (List.mem_cons_self _ _)
    have hx2 : x.getLast? ≠ some ':' := h2 x (List.mem_cons_self _ _)
    have ih := splitSep_joinSep (y :: rest) (by simp)
      (fun z hz => h1 z (List.mem_cons_of_mem x hz))
      (fun z hz => h2 z (List.mem_cons_of_mem x hz))
    have hsep : x ++ SEP ++ joinSep (y :: rest) =
        x ++ ':' :: ':' :: joinSep (y :: rest) := by
      rw [List.append_assoc]
      rfl
    rw [hsep, splitSep_append x _ hx1 hx2, ih]

theorem head?_joinSep (x : Str) (rest : List Str) (hx : x ≠ []) :
    (joinSep (x :: rest)).head? = x.head? := by
  cases rest with
  | nil => rw [joinSep]
  | cons y ys =>
    rw [joinSep]
    cases x with
    | nil => exact absurd rfl hx
    | cons c cs => simp

theorem joinSep_ne_nil (x : Str) (rest : List Str) (hx : x ≠ []) :
    joinSep (x :: rest) ≠ [] := by
  intro h
  have := head?_joinSep x rest hx
  rw [h] at this
  cases x with
  | nil => exact hx rfl
  | cons c cs => simp at this

theorem getLast?_joinSep :
    ∀ L : List Str, (∀ x ∈ L, x ≠ []) → (∀ x ∈ L, x.getLast? ≠ some ':') →
      (joinSep L).getLast? ≠ some ':'
  | [], _, _ => by simp [joinSep]
  | [x], _, h2 => by
    rw [joinSep]
    exact h2 x (List.mem_singleton_self x)
  | x :: y :: rest, h1, h2 => by
    rw [joinSep]
    have ih := getLast?_joinSep (y :: rest)
      (fun z hz => h1 z (List.mem_cons_of_mem x hz))
      (fun z hz => h2 z (List.mem_cons_of_mem x hz))
    have hne : joinSep (y :: rest) ≠ [] :=
      joinSep_ne_nil y rest (h1 y (List.mem_cons_of_mem x (List.mem_cons_self _ _)))
    rw [List.append_assoc,
      List.getLast?_append_of_ne_nil x
        (show SEP ++ joinSep (y :: rest) ≠ [] by simp [SEP]),
      List.getLast?_append_of_ne_nil SEP hne]
    exact ih

theorem dropWhile_colon_head (l : Str) (h : l.head? ≠ some ':') :
    l.dropWhile (fun c => c = ':') = l := by
  cases l with
  | nil => rfl
  | cons c cs =>
    have hc : ¬(c = ':') := by simpa using h
    simp [List.dropWhile_cons, hc]

/-- Trimming the `':'` characters off a bounded encoding recovers the joined
body, provided the body itself contributes no boundary colon. -/
theorem trimColons_sep_bounded (j : Str) (hne : j ≠ [])
    (hh : j.head? ≠ some ':') (hl : j.getLast? ≠ some ':') :
    trimColons (SEP ++ j ++ SEP) = j := by
  have e1 : SEP ++ j ++ SEP = ':' :: ':' :: (j ++ SEP) := by
    rw [List.append_assoc]
    rfl
  have e3 : (j ++ SEP).dropWhile (fun c => c = ':') = j ++ SEP := by
    cases j with
    | nil => exact absurd rfl hne
    | cons c cs =>
      have hc : ¬(c = ':') := by simpa using hh
      simp [List.dropWhile_cons, hc]
  have e4 : (j ++ SEP).reverse = ':' :: ':' :: j.reverse := by
    rw [List.reverse_append]
    rfl
  rw [trimColons, e1]
  rw [show ((':' :: ':' :: (j ++ SEP)) : Str).dropWhile (fun c => c = ':')
      = (j ++ SEP).dropWhile (fun c => c = ':') from by
    simp [List.dropWhile_cons]]
  rw [e3, e4]
  rw [show ((':' :: ':' :: j.reverse) : Str).dropWhile (fun c => c = ':')
      = j.reverse.dropWhile (fun c => c = ':') from by
    simp [List.dropWhile_cons]]
  rw [dropWhile_colon_head _ (by rw [List.head?_reverse]; exact hl),
    List.reverse_reverse]

/-- C3 (counterexample): the bag round-trip fails on `L = [":a"]`, a
one-element list of a non-empty string.  `join_string_vec` produces
`":::a::"`, and `DblpRecord::authors` trims every boundary `':'` (not just
the two separator characters), decoding to `["a"] ≠ L`. -/
theorem c3_bag_roundtrip_fails :
    recordAuthors (encodeAuthorsField [[':', 'a']]) = some [['a']] ∧
      ([['a']] : List Str) ≠ [[':', 'a']] := by
  exact ⟨by decide, by decide⟩

/-- C3 (amended): decoding inverts the bag encoding for every non-empty list
of non-empty strings in which no element contains the substring `::`, no
element ends with `':'`, and the first element does not start with `':'`
(an empty list is encoded as `NULL` and decodes to `None`, not to a list). -/
theorem c3_bag_roundtrip_amended (L : List Str) (h0 : L ≠ [])
    (h1 : ∀ x ∈ L, x ≠ [])
    (h2 : ∀ x ∈ L, containsSep x = false)
    (h3 : ∀ x ∈ L, x.getLast? ≠ some ':')
    (h4 : (L.headD []).head? ≠ some ':') :
    recordAuthors (encodeAuthorsField L) = some L := by
  match L, h0 with
  | x :: rest, _ =>
    have hx : x ≠ [] := h1 x (List.mem_cons_self _ _)
    have hh : (joinSep (x :: rest)).head? ≠ some ':' := by
      rw [head?_joinSep x rest hx]
      exact h4
    have hl : (joinSep (x :: rest)).getLast? ≠ some ':' :=
      getLast?_joinSep _ h1 h3
    have hne : joinSep (x :: rest) ≠ [] := joinSep_ne_nil x rest hx
    show some (splitSep (trimColons (SEP ++ joinSep (x :: rest) ++ SEP)))
      = some (x :: rest)
    rw [trimColons_sep_bounded _ hne hh hl,
      splitSep_joinSep _ (by simp) h2 h3]

/-- C3 (witness): the amended round-trip applied to `L = ["A", "B"]`. -/
theorem c3_bag_roundtrip_amended_witness :
    recordAuthors (encodeAuthorsField [['A'], ['B']]) = some [['A'], ['B']] :=
  c3_bag_roundtrip_amended [['A'], ['B']] (by decide) (by decide) (by decide)
    (by decide) (by decide)

/-! ## 4.G CSV sink (`db_items.rs` `to_csv_row`/`to_csv_headers`,
`lib.rs` `save_temporal_relation`)

A Rust `HashSet<String>` is modelled as a duplicate-free list in insertion
order; `extend` inserts each new element at the back unless already present.
Iteration order of the model is insertion order (the Rust iteration order is
unspecified; the claims under test only depend on the set of elements and on
the presence/absence of the `::` bounds in the joined cell). -/

/-- Model of `HashSet::extend`: fold the new elements into the accumulator,
skipping duplicates. -/
def setExtend (acc : List Str) (xs : List Str) : List Str :=
  xs.foldl (fun a x => if x ∈ a then a else a ++ [x]) acc

/-- Model of `PersonTemporalRelation`: an author, an inclusive year range, and one
coauthor set per year. -/
structure PersonTemporalRelation where
  author : Str
  years : Nat × Nat
  coauthor_years : List (List Str)

/-- The inner loop of `to_csv_row`: `for i in 0..limit` extend a fresh set
with `coauthor_years[i]`. -/
def csvCellUnion (sets : List (List Str)) (limit : Nat) : List Str :=
  (List.range limit).foldl (fun acc i => setExtend acc (sets.getD i [])) []

/-- Model of `PersonTemporalRelation::to_csv_row`: the author, then for every
`limit in 1..=len` the union of the first `limit` coauthor sets joined with
`SEPARATOR` (plain `Vec::join`, no bounding separators). -/
def toCsvRow (r : PersonTemporalRelation) : List Str :=
  r.author ::
    (List.range r.coauthor_years.length).map
      (fun j => joinSep (csvCellUnion r.coauthor_years (j + 1)))

/-- Model of `PersonTemporalRelation::to_csv_headers`: `"author"` followed by the
years of the inclusive range. -/
def toCsvHeaders (r : PersonTemporalRelation) : List Str :=
  ("author".toList : Str) ::
    (List.range (r.years.2 + 1 - r.years.1)).map
      (fun k => (toString (r.years.1 + k)).toList)

/-- Result of `save_temporal_relation`: `ok f` returns success with `f` the
file contents written (`none` when no file was created at all), `rangeErr`
is the semantic year-range error, raised before the target file is opened. -/
inductive SaveOutcome where
  | ok (file : Option (List (List Str)))
  | rangeErr
deriving DecidableEq

/-- Model of `save_temporal_relation` (`lib.rs`): empty input returns `Ok` at once
without touching the file system; then all records must share the first
record's year range, otherwise the export fails before `csv::Writer`
creates the target file; otherwise the header row and one row per record
are written. -/
def saveTemporalRelation (relation : List PersonTemporalRelation) : SaveOutcome :=
  match relation with
  | [] => .ok none
  | first :: _ =>
    if relation.all (fun r => r.years = first.years) then
      .ok (some (toCsvHeaders first :: relation.map toCsvRow))
    else .rangeErr

/-- C4 counterexample relation: author `"A"`, a single year, a single
coauthor `"B"`. -/
def c4Rel : PersonTemporalRelation :=
  { author := ['A'], years := (2000, 2000), coauthor_years := [[['B']]] }

/-- C4 (counterexample): the data row for `c4Rel` is `["A", "B"]`: the
cumulative cell holds the coauthor names joined by `::` but *without* the
leading and trailing separators, so it is not the bag encoding `"::B::"`
claimed for it. -/
theorem c4_csv_cell_not_bag_encoded :
    toCsvRow c4Rel = [['A'], ['B']] ∧
      (toCsvRow c4Rel).getD 1 [] ≠ joinStringVec [['B']] := by
  exact ⟨by decide, by decide⟩

theorem csvCellUnion_eq_take (sets : List (List Str)) :
    ∀ limit : Nat, limit ≤ sets.length →
      csvCellUnion sets limit = (sets.take limit).foldl setExtend []
  | 0, _ => rfl
  | limit + 1, h => by
    have ih := csvCellUnion_eq_take sets limit (Nat.le_of_succ_le h)
    have hv : sets[limit]? = some (sets.get ⟨limit, by omega⟩) :=
      List.getElem?_eq_getElem (by omega)
    rw [csvCellUnion, List.range_succ, List.foldl_append, ← csvCellUnion, ih,
      List.take_succ, List.foldl_append, hv]
    simp [List.getD_eq_getElem?_getD, hv]

/-- C4 (amended): every data row is `[author, cumulative0, cumulative1, …]`
where cumulative cell `k` is the union of the coauthor names accumulated
through index `k`, joined by the separator `::` but *not* bounded by it
(`"name1::name2"`, empty cell for an empty union, rather than the
bag-encoded `"::name1::name2::"`). -/
theorem c4_csv_row_amended (r : PersonTemporalRelation) :
    toCsvRow r = r.author ::
      (List.range r.coauthor_years.length).map
        (fun k => joinSep ((r.coauthor_years.take (k + 1)).foldl setExtend [])) := by
  rw [toCsvRow]
  congr 1
  refine List.map_congr_left (fun k hk => ?_)
  rw [List.mem_range] at hk
  rw [csvCellUnion_eq_take r.coauthor_years (k + 1) (by omega)]

/-- C8: for a non-empty list of relations, the export fails with the
semantic year-range error exactly when the records do not all share the
first record's year range.  In the model the error constructor carries no
file contents: the check happens before `csv::Writer::from_path`, so the
error leaves the file system untouched; when all ranges agree the semantic
error is not raised and the header plus one row per record are written. -/
theorem c8_save_rejects_heterogeneous_ranges (first : PersonTemporalRelation)
    (rest : List PersonTemporalRelation) :
    saveTemporalRelation (first :: rest) = SaveOutcome.rangeErr ↔
      ¬ (∀ r ∈ first :: rest, r.years = first.years) := by
  simp only [saveTemporalRelation]
  by_cases h : (first :: rest).all (fun r => decide (r.years = first.years))
  · rw [if_pos h]
    simp only [List.all_eq_true, decide_eq_true_eq] at h
    constructor
    · intro hcon
      exact absurd hcon (by simp)
    · intro hno
      exact absurd h hno
  · rw [if_neg h]
    simp only [List.all_eq_true, decide_eq_true_eq] at h
    exact ⟨fun _ => h, fun _ => rfl⟩

/-- C10: calling `save_temporal_relation` with an empty vector of relations
returns success immediately and performs no write at all: no target file is
created and no header row is emitted. -/
theorem c10_empty_export_noop :
    saveTemporalRelation [] = SaveOutcome.ok none := rfl

/-! ## 4.D Schema flattener: `www` records (`db_items.rs`,
`TryFrom<WebPage> for PersonRecord`), and ## 4.F exact person lookup
(`db.rs`, `query_author_exact`). -/

/-- Model of `PersonRecord`: one row of the `persons` table. -/
structure PersonRecord where
  id : Nat
  name : Str
  profile : Str
  aliases : Str
deriving DecidableEq

/-- Model of `WebPage`: a deserialised `www` element (`xml_items.rs`). -/
structure WebPage where
  key : Str
  title : List Str
  url : List Str
  author : List Str

/-- Model of `TryFrom<WebPage> for PersonRecord`: keep the record only when its first
title element is exactly `"Home Page"`; `name` is the first author (default
empty), `profile` is the key, `aliases` is the bag encoding of the remaining
authors; the `id` column is set to 0 (unused for converted records). -/
def personRecordTryFromWebPage (w : WebPage) : Option PersonRecord :=
  match w.title.head? with
  | some t =>
    if t = "Home Page".toList then
      some { id := 0
             name := w.author.headD []
             profile := w.key
             aliases := joinStringVec (w.author.drop 1) }
    else none
  | none => none

/-- C9: a `www` record converts to a Person exactly when its first title
element is literally `"Home Page"` (a different or missing first title is
discarded), and the produced person has `name` the first author value
(empty when there are no authors), `profile` the record's key, and
`aliases` the bag encoding of the remaining authors. -/
theorem c9_webpage_person_filter (w : WebPage) :
    personRecordTryFromWebPage w =
      if w.title.head? = some ("Home Page".toList) then
        some { id := 0
               name := w.author.headD []
               profile := w.key
               aliases := joinStringVec (w.author.drop 1) }
      else none := by
  rw [personRecordTryFromWebPage]
  cases ht : w.title.head? with
  | none => simp
  | some t =>
    by_cases he : t = "Home Page".toList
    · subst he
      simp
    · simp [he, Option.some_inj, fun hs : some t = some ("Home Page".toList) =>
        he (Option.some_inj.mp hs)]

/-- Model of `query_author_exact` (`db.rs`): `SELECT * FROM persons WHERE name = ?`
with parameter `"::" ++ author ++ "::"`; the table is modelled as a list of
rows and the SQL equality predicate as string equality. -/
def queryAuthorExact (persons : List PersonRecord) (author : Str) :
    List PersonRecord :=
  persons.filter (fun p => p.name = SEP ++ author ++ SEP)

/-- C6: the exact-match person query compares `persons.name` against the
queried name wrapped in literal `::` separators, so in a store where no
stored person name both starts and ends with `::` (names are not
bag-encoded) it returns the empty list, whatever name is queried. -/
theorem c6_exact_person_lookup_empty (persons : List PersonRecord)
    (author : Str)
    (h : ∀ p ∈ persons, ¬(SEP <+: p.name ∧ SEP <:+ p.name)) :
    queryAuthorExact persons author = [] := by
  rw [queryAuthorExact, List.filter_eq_nil_iff]
  intro p hp
  simp only [decide_eq_true_eq]
  intro he
  refine h p hp ⟨⟨author ++ SEP, ?_⟩, ⟨SEP ++ author, ?_⟩⟩
  · rw [he, List.append_assoc]
  · rw [he, List.append_assoc]

/-- C6 (witness): the exact lookup on a one-row store whose person is named
`"Jane Doe"` (not bag-encoded) returns no rows. -/
theorem c6_exact_person_lookup_empty_witness :
    queryAuthorExact
      [{ id := 1, name := "Jane Doe".toList, profile := "p/J1".toList,
         aliases := [] }] ("Jane Doe".toList) = [] :=
  c6_exact_person_lookup_empty _ _ (by decide)

/-! ## 4.G Temporal-relation engine (`db_items.rs`,
`PersonRecord::to_relations`)

The per-author SQL query yields `(year, authors-bag)` pairs; the embedding
takes that row list as a parameter.  For every year of the inclusive range
the rows of that year are decoded (`trim_end_matches("::")` then
`split("::")`), folded into the running accumulator set, the author's own
name is removed, and a snapshot of the accumulator is appended. -/

/-- One row produced by the per-author query (`AssociatedAuthorYear`). -/
structure AssociatedAuthorYear where
  year : Nat
  authors : Str

/-- Rust `str::trim_end_matches("::")`: repeatedly remove a trailing
occurrence of the full separator string. -/
def stripLeadingSeps : Str → Str
  | ':' :: ':' :: rest => stripLeadingSeps rest
  | s => s

def trimEndSep (s : Str) : Str := (stripLeadingSeps s.reverse).reverse

/-- The inclusive Rust range `start..=end` (empty when `start > end`). -/
def yearRange (start endY : Nat) : List Nat :=
  (List.range (endY + 1 - start)).map (fun k => start + k)

/-- One iteration of the year loop in `to_relations`: decode and union the
authors bags of this year's rows, extend the running accumulator, remove
the author's own name, snapshot. -/
def relStep (name : Str) (rows : List AssociatedAuthorYear)
    (st : List Str × List (List Str)) (yr : Nat) :
    List Str × List (List Str) :=
  let coAuth := (rows.filter (fun a => a.year = yr)).foldl
    (fun acc a => setExtend acc (splitSep (trimEndSep a.authors))) []
  let acc := (setExtend st.1 coAuth).filter (fun x => ¬(x = name))
  (acc, st.2 ++ [acc])

/-- Model of `PersonRecord::to_relations`, with the SQL result rows as a parameter. -/
def toRelations (name : Str) (start endY : Nat)
    (rows : List AssociatedAuthorYear) : PersonTemporalRelation :=
  { author := name
    years := (start, endY)
    coauthor_years := ((yearRange start endY).foldl (relStep name rows) ([], [])).2 }

theorem subset_setExtend :
    ∀ (xs acc : List Str), acc ⊆ setExtend acc xs := by
  intro xs
  induction xs with
  | nil => intro acc; exact fun x hx => hx
  | cons x xs ih =>
    intro acc
    have h1 : acc ⊆ (if x ∈ acc then acc else acc ++ [x]) := by
      by_cases hx : x ∈ acc
      · rw [if_pos hx]
        exact List.Subset.refl acc
      · rw [if_neg hx]
        exact fun z hz => List.mem_append_left _ hz
    exact fun z hz => ih (if x ∈ acc then acc else acc ++ [x]) (h1 hz)

theorem relStep_acc_subset (name : Str) (rows : List AssociatedAuthorYear)
    (st : List Str × List (List Str)) (yr : Nat) (hn : name ∉ st.1) :
    st.1 ⊆ (relStep name rows st yr).1 := by
  intro z hz
  have hz2 := subset_setExtend
    ((rows.filter (fun a => a.year = yr)).foldl
      (fun acc a => setExtend acc (splitSep (trimEndSep a.authors))) []) st.1 hz
  simp only [relStep, List.mem_filter, decide_eq_true_eq]
  refine ⟨hz2, ?_⟩
  intro he
  exact hn (he ▸ hz)

theorem relStep_name_not_mem (name : Str) (rows : List AssociatedAuthorYear)
    (st : List Str × List (List Str)) (yr : Nat) :
    name ∉ (relStep name rows st yr).1 := by
  simp [relStep, List.mem_filter]

/-- Invariant of the year loop: the author's name is never in the
accumulator, the snapshots grow along `⊆`, and the last snapshot (if any)
is the current accumulator. -/
theorem foldl_relStep_inv (name : Str) (rows : List AssociatedAuthorYear) :
    ∀ (years : List Nat) (acc : List Str) (snaps : List (List Str)),
      name ∉ acc →
      List.Chain' (· ⊆ ·) snaps →
      (snaps = [] ∨ snaps.getLast? = some acc) →
      name ∉ (years.foldl (relStep name rows) (acc, snaps)).1 ∧
        List.Chain' (· ⊆ ·) (years.foldl (relStep name rows) (acc, snaps)).2 ∧
        ((years.foldl (relStep name rows) (acc, snaps)).2 = [] ∨
          (years.foldl (relStep name rows) (acc, snaps)).2.getLast? =
            some (years.foldl (relStep name rows) (acc, snaps)).1)
  | [], _, _, h1, h2, h3 => ⟨h1, h2, h3⟩
  | yr :: years, acc, snaps, h1, h2, h3 => by
    rw [List.foldl_cons]
    have hpair : relStep name rows (acc, snaps) yr =
        ((relStep name rows (acc, snaps) yr).1,
          snaps ++ [(relStep name rows (acc, snaps) yr).1]) := rfl
    set acc' := (relStep name rows (acc, snaps) yr).1 with hacc'
    have hnm : name ∉ acc' := relStep_name_not_mem name rows (acc, snaps) yr
    have hsub : acc ⊆ acc' := relStep_acc_subset name rows (acc, snaps) yr h1
    have hchain : List.Chain' (· ⊆ ·) (snaps ++ [acc']) := by
      refine List.chain'_append.mpr ⟨h2, List.chain'_singleton _, ?_⟩
      intro x hx y hy
      simp only [List.head?_cons, Option.mem_def, Option.some_inj] at hy
      subst hy
      rcases h3 with hnil | hlast
      · subst hnil
        simp at hx
      · rw [hlast] at hx
        simp only [Option.mem_def, Option.some_inj] at hx
        subst hx
        exact hsub
    have hlast' : (snaps ++ [acc']).getLast? = some acc' :=
      List.getLast?_concat _
    rw [hpair]
    exact foldl_relStep_inv name rows years acc' (snaps ++ [acc'])
      hnm hchain (Or.inr hlast')

/-- C7: for every person, every year range with `start ≤ end`, and every
list of rows returned by the per-author query, the relation built by
`to_relations` is monotone: snapshot `k` is a subset of snapshot `k+1` for
every `k` with `k+1` in range. -/
theorem c7_temporal_monotonicity (name : Str) (start endY : Nat)
    (rows : List AssociatedAuthorYear) (_hrange : start ≤ endY) :
    ∀ k : Nat, k + 1 < (toRelations name start endY rows).coauthor_years.length →
      (toRelations name start endY rows).coauthor_years.getD k [] ⊆
        (toRelations name start endY rows).coauthor_years.getD (k + 1) [] := by
  intro k hk
  have hcy : (toRelations name start endY rows).coauthor_years =
      ((yearRange start endY).foldl (relStep name rows) ([], [])).2 := rfl
  rw [hcy] at hk ⊢
  have hinv := foldl_relStep_inv name rows (yearRange start endY) [] []
    (by simp) List.chain'_nil (Or.inl rfl)
  have hchain := hinv.2.1
  have hstep := List.chain'_iff_get.mp hchain k (by omega)
  have e1 : ((yearRange start endY).foldl (relStep name rows) ([], [])).2.getD k [] =
      ((yearRange start endY).foldl (relStep name rows) ([], [])).2.get
        ⟨k, by omega⟩ := by
    rw [List.getD_eq_getElem?_getD, List.getElem?_eq_getElem (by omega)]
    rfl
  have e2 : ((yearRange start endY).foldl (relStep name rows) ([], [])).2.getD (k + 1) [] =
      ((yearRange start endY).foldl (relStep name rows) ([], [])).2.get
        ⟨k + 1, by omega⟩ := by
    rw [List.getD_eq_getElem?_getD, List.getElem?_eq_getElem (by omega)]
    rfl
  rw [e1, e2]
  exact hstep

/-- C7 (witness): monotonicity at a concrete instance: author `"A"`, range
`[2000, 2001]`, one 2000 row with coauthor bag `"::A::B::"`. -/
theorem c7_temporal_monotonicity_witness :
    (toRelations ['A'] 2000 2001
        [{ year := 2000, authors := [':', ':', 'A', ':', ':', 'B', ':', ':'] }]
      ).coauthor_years.getD 0 [] ⊆
      (toRelations ['A'] 2000 2001
        [{ year := 2000, authors := [':', ':', 'A', ':', ':', 'B', ':', ':'] }]
      ).coauthor_years.getD 1 [] :=
  c7_temporal_monotonicity ['A'] 2000 2001
    [{ year := 2000, authors := [':', ':', 'A', ':', ':', 'B', ':', ':'] }]
    (by omega) 0 (by decide)

/-! ## 4.F `query_publication` (`db.rs`)

The source issues `SELECT * FROM persons WHERE aliases LIKE ?` with the raw
key as the pattern, and decodes the returned *person* rows through the
positional `From<Row> for DblpRecord` conversion (`row.get(0)` is `id`,
`row.get(1)` — the person's *name* — is parsed as the publication kind and
unwrapped, `row.get(2)` — the profile — becomes `key`, `row.get(3)` — the
aliases — becomes `mdate`; columns 4..9 do not exist and decode to `None`).
The spec states the intent instead: `publications.key = ?`. -/

/-- The publication kind tag (`PublicationRecord` in `db_items.rs`). -/
inductive PublicationRecord where
  | Article | InProceeding | Proceeding | InCollection | Book
  | Collection | PhdThesis | MastersThesis | Data
deriving DecidableEq

/-- Model of `FromStr for PublicationRecord`. -/
def publicationRecordOfName (s : Str) : Option PublicationRecord :=
  if s = "article".toList then some .Article
  else if s = "inproceeding".toList then some .InProceeding
  else if s = "proceeding".toList then some .Proceeding
  else if s = "incollection".toList then some .InCollection
  else if s = "book".toList then some .Book
  else if s = "collection".toList then some .Collection
  else if s = "phdthesis".toList then some .PhdThesis
  else if s = "mastersthesis".toList then some .MastersThesis
  else if s = "data".toList then some .Data
  else none

/-- Model of `DblpRecord`: one row of the `publications` table, with the surrogate
`id` read back by the positional row decoder. -/
structure DblpRecord where
  id : Nat
  record : PublicationRecord
  key : Str
  mdate : Option Str
  publtype : Option Str
  year : Option Nat
  authors : Option Str
  citations : Option Str
  publisher : Option Str
  school : Option Str
deriving DecidableEq

/-- The embedded store: the two tables as row lists. -/
structure Store where
  persons : List PersonRecord
  publications : List DblpRecord

/-- SQLite `LIKE`: `%` matches any run, `_` any single character, other
characters match ASCII case-insensitively. -/
def sqlLike : Str → Str → Bool
  | [], [] => true
  | [], _ :: _ => false
  | '%' :: ps, t =>
    sqlLike ps t ||
      (match t with
       | [] => false
       | _ :: ts => sqlLike ('%' :: ps) ts)
  | '_' :: _, [] => false
  | '_' :: ps, _ :: ts => sqlLike ps ts
  | _ :: _, [] => false
  | p :: ps, c :: ts => (p.toLower = c.toLower) && sqlLike ps ts
termination_by p t => (p.length, t.length)

/-- Model of `From<Row> for DblpRecord` applied to a row of the `persons` table:
`row.get(1).unwrap()` parses the person's name as a publication kind and
panics when that fails. -/
def dblpRecordOfPersonRow (p : PersonRecord) : RunResult DblpRecord :=
  match publicationRecordOfName p.name with
  | none => .panicked ("called Result::unwrap on an Err value")
  | some rec =>
    .ok { id := p.id, record := rec, key := p.profile, mdate := some p.aliases,
          publtype := none, year := none, authors := none, citations := none,
          publisher := none, school := none }

/-- Model of `query_publication` (`db.rs`) as written: filter the **persons** table by
`aliases LIKE key`, apply the optional `LIMIT`, then decode every row as a
`DblpRecord`. -/
def queryPublication (store : Store) (key : Str) (limit : Option Nat) :
    RunResult (List DblpRecord) :=
  let rows := store.persons.filter (fun p => sqlLike key p.aliases)
  let rows := match limit with
    | some l => rows.take l
    | none => rows
  rows.foldr
    (fun p acc =>
      match dblpRecordOfPersonRow p, acc with
      | .panicked m, _ => .panicked m
      | _, .panicked m => .panicked m
      | .ok r, .ok rs => .ok (r :: rs))
    (.ok [])

/-- The behaviour the claim (and the spec's stated intent) describes for
`query_publication`: rows of the publications table whose `key` column
equals the queried key, truncated to the limit. -/
def queryPublicationIntended (store : Store) (key : Str) (limit : Option Nat) :
    List DblpRecord :=
  let rows := store.publications.filter (fun p => p.key = key)
  match limit with
  | some l => rows.take l
  | none => rows

/-- A store holding exactly one publication, with key `"conf/x/1"`, and no
persons. -/
def c5Store : Store :=
  { persons := []
    publications := [{ id := 1, record := .Article, key := "conf/x/1".toList,
                       mdate := none, publtype := none, year := some 2000,
                       authors := none, citations := none, publisher := none,
                       school := none }] }

/-- C5: `query_publication` does not match by key.  On a store containing a
publication with the queried key it returns no rows (it scans the empty
persons table via `persons.aliases LIKE ?`), while the claimed predicate
`publications.key = ?` selects that publication. -/
theorem c5_query_publication_wrong_table :
    queryPublication c5Store ("conf/x/1".toList) none = .ok [] ∧
      queryPublicationIntended c5Store ("conf/x/1".toList) none =
        c5Store.publications ∧
      c5Store.publications ≠ [] := by
  exact ⟨rfl, by decide, by decide⟩

/-! ## 4.B Chunked XML viewer (`dataset.rs`, `ChunkedXmlViewer`)

The three regexes the viewer compiles are specialised to direct matchers:

* `XML_START_TAG = <\w+>|<\w+` — at a position: `<`, a non-empty maximal
  word-character run, then optionally a closing `>` (the first alternative
  wins when the character after the run is `>`; backtracking inside `\w+`
  cannot produce a different `>`).
* `XML_END_TAG = </\w+>|/>` — either a complete closing tag or a bare `/>`.
* `XML_SELF_CLOSE_TAG = <.*?/>` — `<`, a lazy run of non-newline
  characters, then the first following `/>`.

`Regex::find` returns the leftmost match; `findFrom` scans positions in
order.  `next_element` is a fuelled loop (the Rust `while depth != 0`);
fuel exhaustion is a model artifact reported via a distinct panic message
and never reached at the inputs evaluated below. -/

/-- A regex word character `\w` over the ASCII inputs in use. -/
def isWordChar (c : Char) : Bool := c.isAlphanum || c = '_'

/-- Maximal leading run of word characters and the remainder. -/
def takeWord : Str → Str × Str
  | [] => ([], [])
  | c :: cs =>
    if isWordChar c then
      let r := takeWord cs
      (c :: r.1, r.2)
    else ([], c :: cs)

/-- Length of the match of `<\w+>|<\w+` at the current position, if any. -/
def matchStartAt : Str → Option Nat
  | '<' :: rest =>
    let tw := takeWord rest
    if tw.1.isEmpty then none
    else
      match tw.2 with
      | '>' :: _ => some (tw.1.length + 2)
      | _ => some (tw.1.length + 1)
  | _ => none

/-- Length of the match of `</\w+>|/>` at the current position, if any. -/
def matchEndAt : Str → Option Nat
  | '<' :: '/' :: rest =>
    let tw := takeWord rest
    if tw.1.isEmpty then none
    else
      match tw.2 with
      | '>' :: _ => some (tw.1.length + 3)
      | _ => none
  | '/' :: '>' :: _ => some 2
  | _ => none

/-- Lazy scan for the first `/>` (dots match anything but a newline);
returns the consumed length up to and including the `/>`. -/
def lazySlashGt : Str → Option Nat
  | '/' :: '>' :: _ => some 2
  | c :: rest =>
    if c = '\n' then none
    else (lazySlashGt rest).map (fun k => k + 1)
  | [] => none

/-- Length of the match of `<.*?/>` at the current position, if any. -/
def matchSelfCloseAt : Str → Option Nat
  | '<' :: rest => (lazySlashGt rest).map (fun k => k + 1)
  | _ => none

/-- Leftmost match of a position matcher: the `(start, end)` offsets of the
first position where the matcher succeeds. -/
def findFrom (m : Str → Option Nat) : Str → Option (Nat × Nat)
  | [] =>
    (m []).map (fun len => (0, len))
  | c :: rest =>
    match m (c :: rest) with
    | some len => some (0, len)
    | none => (findFrom m rest).map (fun q => (q.1 + 1, q.2 + 1))

/-- Rust `str::trim_matches(['<', '>'])`: strip every leading/trailing
`<` or `>`. -/
def trimAngles (s : Str) : Str :=
  ((s.dropWhile (fun c => c = '<' || c = '>')).reverse.dropWhile
    (fun c => c = '<' || c = '>')).reverse

/-- The viewer state (`ChunkedXmlViewer`): cursor offset into `inner`, the
remembered root tags, and the chunk size. -/
structure ChunkedXmlViewer where
  offset : Nat
  len : Nat
  numChunks : Nat
  rootTagStart : Str
  rootTagEnd : Str
  inner : Str
deriving DecidableEq, Repr

/-- Model of `ChunkedXmlViewer::from_str`: locate the opening root tag (panic — here
`none` — when absent), remember it, synthesise the closing tag, and start
just past the opening tag. -/
def ChunkedXmlViewer.fromStr (input : Str) (numChunks : Nat) :
    Option ChunkedXmlViewer :=
  match findFrom matchStartAt input with
  | none => none
  | some pos =>
    let tagStart := (input.drop pos.1).take (pos.2 - pos.1)
    some { offset := 0
           len := input.length - pos.2
           numChunks := numChunks
           rootTagStart := tagStart
           rootTagEnd := '<' :: '/' :: (trimAngles tagStart ++ ['>'])
           inner := input.drop pos.2 }

/-- The `while depth != 0` loop of `next_element`.  Each iteration first
evaluates the debug `println!` whose `&reference[..10]` slice panics when
fewer than 10 bytes remain, then finds (and `unwrap`s) the next start and
end matches, then dispatches on the self-closing match exactly as the
source does. -/
def nextElementLoop : Nat → Nat → Nat → Str → RunResult Nat
  | _, 0, offset, _ => .ok offset
  | 0, _ + 1, _, _ => .panicked ("model: out of fuel")
  | fuel + 1, depth + 1, offset, reference =>
    if reference.length < 10 then
      .panicked ("byte index 10 is out of bounds")
    else
      match findFrom matchStartAt reference, findFrom matchEndAt reference with
      | none, _ => .panicked ("called Option::unwrap on a None value")
      | some _, none => .panicked ("called Option::unwrap on a None value")
      | some start, some endm =>
        match findFrom matchSelfCloseAt reference with
        | some sc =>
          if sc.1 < start.1 ∧ sc.1 < endm.1 then
            nextElementLoop fuel (depth + 1) (offset + sc.2) (reference.drop sc.2)
          else if start.1 < endm.1 then
            nextElementLoop fuel (depth + 2) (offset + start.2)
              (reference.drop start.2)
          else if endm.1 < start.1 then
            nextElementLoop fuel depth (offset + endm.2) (reference.drop endm.2)
          else .panicked ("not implemented: both regex cannot match at the same position")
        | none =>
          if start.1 < endm.1 then
            nextElementLoop fuel (depth + 2) (offset + start.2)
              (reference.drop start.2)
          else if endm.1 < start.1 then
            nextElementLoop fuel depth (offset + endm.2) (reference.drop endm.2)
          else .panicked ("not implemented: both regex cannot match at the same position")

/-- Model of `ChunkedXmlViewer::next_element`: returns the next top-level child (and
the advanced viewer), `ok none` when no further start tag exists, or the
panic the loop runs into. -/
def nextElement (v : ChunkedXmlViewer) (fuel : Nat) :
    RunResult (Option (Str × ChunkedXmlViewer)) :=
  let reference := v.inner.drop v.offset
  match findFrom matchStartAt reference with
  | none => .ok none
  | some start =>
    match nextElementLoop fuel 1 start.2 (reference.drop start.2) with
    | .panicked m => .panicked m
    | .ok offset =>
      .ok (some ((v.inner.drop v.offset).take offset,
        { v with offset := v.offset + offset }))

/-- The `while count != 0` loop of `next_chunk`, collecting elements. -/
def nextChunkLoop (fuel : Nat) :
    Nat → ChunkedXmlViewer → List Str → RunResult (List Str × ChunkedXmlViewer)
  | 0, v, acc => .ok (acc, v)
  | count + 1, v, acc =>
    match nextElement v fuel with
    | .panicked m => .panicked m
    | .ok none => .ok (acc, v)
    | .ok (some (el, v')) => nextChunkLoop fuel count v' (acc ++ [el])

/-- Model of `ChunkedXmlViewer::next_chunk`: nothing once the cursor reaches the end;
otherwise up to `num_chunks` elements wrapped in the remembered root tags
(`ok none` when no element could be read). -/
def nextChunk (v : ChunkedXmlViewer) (fuel : Nat) :
    RunResult (Option Str × ChunkedXmlViewer) :=
  if v.len ≤ v.offset then .ok (none, v)
  else
    match nextChunkLoop fuel v.numChunks v [] with
    | .panicked m => .panicked m
    | .ok ([], v') => .ok (none, v')
    | .ok (chunks, v') =>
      .ok (some (v.rootTagStart ++ chunks.flatten ++ v.rootTagEnd), v')

/-- Drive `next_chunk` up to `n` times, recording each outcome; a panic
stops the iteration. -/
def chunkSeq (fuel : Nat) : Nat → ChunkedXmlViewer → List (RunResult (Option Str))
  | 0, _ => []
  | n + 1, v =>
    match nextChunk v fuel with
    | .panicked m => [.panicked m]
    | .ok (c, v') => .ok c :: chunkSeq fuel n v'

/-- The minimal chunker scenario input. -/
def c1Input : Str := "<dblp><a><b/></a><c>x</c></dblp>".toList

/-- C1: on `<dblp><a><b/></a><c>x</c></dblp>` with `N = 1` the viewer
produces the first fragment `<dblp><a><b/></a></dblp>` as specified, but
then panics instead of yielding the second fragment: while extracting
`<c>x</c>` the loop unconditionally `unwrap`s `re_start.find(..)`, and no
opening tag exists after `<c>`, so the unwrap hits `None`. -/
theorem c1_chunker_panics_on_minimal_input :
    (ChunkedXmlViewer.fromStr c1Input 1).map (fun v => chunkSeq 100 2 v) =
      some [.ok (some ("<dblp><a><b/></a></dblp>".toList)),
        .panicked ("called Option::unwrap on a None value")] := by
  decide
